import Mathlib

/-!
Shallow embedding of the rnotes command-line note manager (src/main.rs).

Paths and note names are modelled as strings, the filesystem and the
operating system's process spawning as explicit parameters.  Printed
output is modelled as the list of emitted lines (one string per line;
the bold styling of the presentation layer is dropped, as it is outside
the functional core).  Each definition mirrors the Rust function of the
same name.
-/

namespace RNotes

/-- Error taxonomy of the program: spawn failure of the external
viewer or editor, a failed full read of a note during grep, and a
failed directory scan while building the index. -/
inductive RnError where
  | SpawnError
  | ReadError
  | ScanError
deriving DecidableEq, Repr

/-- Configuration record, mirroring struct Config of the source. -/
structure Config where
  conf : String
  editor : String
  notes_dir : String
  extension : String
  viewer : String
deriving DecidableEq, Repr

/-- Splits a character list on a separator character, keeping empty
chunks, exactly like Rust's split on a single character: splitting
"a//b" on the slash gives the chunks "a", "", "b", and the empty
string gives one empty chunk. -/
def splitChar (sep : Char) : List Char → List (List Char)
  | [] => [[]]
  | c :: rest =>
    let r := splitChar sep rest
    if c = sep then [] :: r else (c :: r.headD []) :: r.tail

/-- Splits a character list at its last dot, returning the parts
before and after it, or none when there is no dot.  This models the
search for the final dot of a Rust file name. -/
def splitAtLastDot : List Char → Option (List Char × List Char)
  | [] => none
  | c :: rest =>
    match splitAtLastDot rest with
    | some (b, a) => some (c :: b, a)
    | none => if c = '.' then some ([], rest) else none

/-- Rust's Path::file_stem applied to a file name: the portion before
the final dot, or the entire name when there is no dot or when the
name begins with its only dot (hidden-file rule). -/
def fileStemChars (f : List Char) : List Char :=
  match splitAtLastDot f with
  | none => f
  | some (b, _) => if b = [] then f else b

/-- The stem of a file name given as a string. -/
def fileStemStr (f : String) : String := String.mk (fileStemChars f.data)

/-- The slash-separated chunks of a path string. -/
def chunks (p : String) : List (List Char) := splitChar '/' p.data

/-- The last chunk of a path that is neither empty nor the current
directory marker, i.e. the candidate file-name component, scanning
from the end like Rust's component iterator. -/
def lastRealChunk : List (List Char) → Option (List Char)
  | [] => none
  | c :: rest =>
    match lastRealChunk rest with
    | some r => some r
    | none => if c = [] ∨ c = ['.'] then none else some c

/-- Rust's Path::file_name on the path string: the last real chunk,
or none when the path is empty, all separators, or ends in the parent
directory marker. -/
def fileNameChunk (p : String) : Option (List Char) :=
  match lastRealChunk (chunks p) with
  | none => none
  | some c => if c = ['.', '.'] then none else some c

/-- Replaces the trailing file-name chunk of a chunk list with a new
name, dropping trailing empty and current-directory chunks, mirroring
how Rust's set_extension truncates the path buffer at the end of the
stem before appending the new extension. -/
def replaceLastReal (newf : List Char) : List (List Char) → Option (List (List Char))
  | [] => none
  | c :: rest =>
    match replaceLastReal newf rest with
    | some r => some (c :: r)
    | none => if c = [] ∨ c = ['.'] then none else some [newf]

/-- Rust's Path::with_extension: when the path has a file name, its
extension (the segment after the last dot of the file name, absent for
hidden-file names) is replaced by the given one; with an empty new
extension the trailing dot is dropped; a path without a file name is
returned unchanged. -/
def withExtension (p e : String) : String :=
  match fileNameChunk p with
  | none => p
  | some f =>
    let stem := fileStemChars f
    let nf := if e = "" then stem else stem ++ '.' :: e.data
    match replaceLastReal nf (chunks p) with
    | none => p
    | some cs => String.mk (List.intercalate ['/'] cs)

/-- Substring containment, modelling Rust's str::contains with a
string pattern: the needle occurs contiguously inside the haystack. -/
def strContains (hay needle : String) : Bool := decide (needle.data <:+: hay.data)

/-- An external process invocation: program, argument list and
working directory, as assembled by the source's _cmd helper. -/
structure Invocation where
  program : String
  args : List String
  workdir : String
deriving DecidableEq, Repr

/-- Builds the invocation exactly as _cmd does: the command line is
split on single spaces, the first chunk is the program, the remaining
chunks are fixed arguments, and the note path is appended as the final
argument; the working directory is the notes directory. -/
def cmdInvocation (cmd path note : String) : Invocation :=
  let v := (splitChar ' ' cmd.data).map String.mk
  { program := v.headD "", args := v.tail ++ [note], workdir := path }

/-- The operating system's spawning behaviour: an error means the
program could not be found or launched, success carries the child's
exit status. -/
def SpawnEnv : Type := Invocation → Except Unit Int

/-- The result of _cmd: a spawn failure becomes SpawnError, while a
child that ran is success no matter its exit status, because the
source calls status() and discards the returned exit code. -/
def cmdRun (env : SpawnEnv) (cmd path note : String) : Except RnError Unit :=
  match env (cmdInvocation cmd path note) with
  | Except.error _ => Except.error RnError.SpawnError
  | Except.ok _ => Except.ok ()

/-- Models fs::create_dir_all on the set of existing directories:
the directory is added when absent and nothing changes when it is
already present. -/
def create_dir_all (dirs : List String) (d : String) : List String :=
  if d ∈ dirs then dirs else d :: dirs

/-- The observable effect of do_new: the directories after the
idempotent creation of the notes directory, the editor invocation on
the name with its extension replaced, and the confirmation output. -/
structure NewResult where
  dirs : List String
  inv : Invocation
  output : List String
deriving DecidableEq, Repr

/-- Mirrors do_new of the source: ensure the notes directory exists,
derive the note file by replacing the name's extension with the
configured one, invoke the editor on it from the notes directory, and
print a blank line and a confirmation line. -/
def do_new (note_name : String) (cfg : Config) (dirs : List String) : NewResult :=
  let dirs2 := create_dir_all dirs cfg.notes_dir
  let note_file := withExtension note_name cfg.extension
  { dirs := dirs2
  , inv := cmdInvocation cfg.editor cfg.notes_dir note_file
  , output := ["", "Created " ++ note_file ++ " in " ++ cfg.notes_dir] }

/-- Resolution of an invocation argument against the invocation's
working directory: a path starting with a slash stands alone, any
other is interpreted under the working directory. -/
def resolveIn (dir arg : String) : String :=
  if arg.data.headD ' ' = '/' then arg else dir ++ "/" ++ arg

/-- The effective target path of the editor invocation made by
do_new: the derived note file resolved against the notes directory. -/
def newTarget (name : String) (cfg : Config) : String :=
  resolveIn cfg.notes_dir (withExtension name cfg.extension)

/-- Lexicographic comparison of character lists by code point, the
order Rust's sort uses on strings. -/
def charListLE : List Char → List Char → Bool
  | [], _ => true
  | _ :: _, [] => false
  | a :: as, b :: bs =>
    if a = b then charListLE as bs else decide (a < b)

/-- Lexicographic order on strings, as a proposition. -/
def strLE (a b : String) : Prop := charListLE a.data b.data = true

/-- Order on index entries by their key, mirroring sort_by_key. -/
def keyLE (a b : String × String) : Prop := strLE a.1 b.1

instance : DecidableRel strLE :=
  fun a b => inferInstanceAs (Decidable (charListLE a.data b.data = true))

instance : DecidableRel keyLE :=
  fun a b => inferInstanceAs (Decidable (strLE a.1 b.1))

/-- Mirrors do_ls: the index entries are sorted by key and the keys
are printed after a leading blank line; the process then exits with
the success code 0 (exitcode::OK). -/
def do_ls (notes : List (String × String)) : List String × Nat :=
  let sorted := notes.insertionSort keyLE
  ("" :: sorted.map Prod.fst, 0)

/-- Mirrors do_find: a leading blank line, then every index key
containing the argument as a substring, in index-iteration order. -/
def do_find (note_arg : String) (notes : List (String × String)) : List String :=
  "" :: ((notes.filter (fun x => strContains x.1 note_arg)).map Prod.fst)

/-- Outcome of do_cmd: either the not-found report on the error
stream together with the process exit code, or the invocation of the
given viewer or editor command. -/
inductive CmdOutcome where
  | notFound (errLine : String) (exitCode : Nat)
  | invoked (inv : Invocation)
deriving DecidableEq, Repr

/-- Mirrors do_cmd: the name is looked up in the index; a miss
reports not-found and exits with code 69 (exitcode::UNAVAILABLE), a
hit invokes the given command on the resolved path. -/
def do_cmd (note_name : String) (notes : List (String × String)) (cfg : Config)
    (cmd : String) : CmdOutcome :=
  match notes.lookup note_name with
  | some n => CmdOutcome.invoked (cmdInvocation cmd cfg.notes_dir n)
  | none => CmdOutcome.notFound (note_name ++ " not found") 69

/-- The Cat command as dispatched by main: do_cmd with the viewer. -/
def do_cat (note_name : String) (notes : List (String × String)) (cfg : Config) : CmdOutcome :=
  do_cmd note_name notes cfg cfg.viewer

/-- The Open command as dispatched by main: do_cmd with the editor. -/
def do_open (note_name : String) (notes : List (String × String)) (cfg : Config) : CmdOutcome :=
  do_cmd note_name notes cfg cfg.editor

/-- Strips one trailing carriage return from a line chunk, as Rust's
lines iterator does for lines terminated by CRLF. -/
def stripCR (cs : List Char) : List Char :=
  match cs.getLast? with
  | some c => if c = '\r' then cs.dropLast else cs
  | none => cs

/-- Processes the newline-separated chunks the way Rust's lines
iterator does: every chunk but the last was newline-terminated and
loses a trailing carriage return; a final empty chunk (from a trailing
newline or the empty string) is dropped, and a final non-empty chunk
is kept as is. -/
def linesChunks : List (List Char) → List (List Char)
  | [] => []
  | [last] => if last = [] then [] else [last]
  | p :: rest => stripCR p :: linesChunks rest

/-- Rust's str::lines on a string. -/
def rustLines (s : String) : List String :=
  (linesChunks (splitChar '\n' s.data)).map String.mk

/-- Formatting of one grep match line. -/
def fmtMatch (note l : String) : String := note ++ ": " ++ l

/-- The output block grep prints for one note: nothing when no line
of the content contains the argument, otherwise a blank line followed
by one formatted line per matching line (the source's nl flag prints
the blank line before the first match only). -/
def grepNote (note_arg note content : String) : List String :=
  let ms := (rustLines content).filter (fun l => strContains l note_arg)
  if ms = [] then [] else "" :: ms.map (fmtMatch note)

/-- Mirrors do_grep: the notes are processed in iteration order; each
note's file is read fully, a failed read aborts immediately with
ReadError (output already printed for earlier notes stands), and a
successful read prints that note's block. -/
def do_grep (note_arg : String) (notes : List (String × String))
    (fs : String → Option String) : List String × Except RnError Unit :=
  match notes with
  | [] => ([], Except.ok ())
  | (note, path) :: rest =>
    match fs path with
    | none => ([], Except.error RnError.ReadError)
    | some content =>
      let r := do_grep note_arg rest fs
      (grepNote note_arg note content ++ r.1, r.2)

/-- The notes directory as seen by build_notes: whether it exists,
whether scanning it fails, and the file names directly inside it. -/
structure NotesFs where
  dirExists : Bool
  scanError : Bool
  entries : List String
deriving DecidableEq, Repr

/-- Suffix test on strings through their character lists. -/
def strEndsWith (s suffix : String) : Bool := suffix.data.isSuffixOf s.data

/-- Joining a directory and an entry name with a slash. -/
def joinPath (d e : String) : String := d ++ "/" ++ e

/-- Mirrors build_notes: the glob pattern notes_dir/*.ext matches the
directory entries ending in a dot and the extension; a missing
directory yields no matches and no error (the glob iterator is simply
empty), a failing scan of an existing directory is ScanError, and each
matched entry is mapped from its stem to its full path. -/
def build_notes (cfg : Config) (fs : NotesFs) : Except RnError (List (String × String)) :=
  if fs.dirExists then
    if fs.scanError then Except.error RnError.ScanError
    else
      Except.ok (((fs.entries.filter (fun e => strEndsWith e ("." ++ cfg.extension))).map
        (fun e => (fileStemStr e, joinPath cfg.notes_dir e))))
  else Except.ok []

/-! Helper lemmas. -/

theorem charListLE_total : ∀ a b : List Char, charListLE a b = true ∨ charListLE b a = true
  | [], _ => Or.inl rfl
  | _ :: _, [] => Or.inr rfl
  | x :: xs, y :: ys => by
    by_cases h : x = y
    · subst h
      simpa [charListLE] using charListLE_total xs ys
    · rcases lt_or_gt_of_ne h with hlt | hgt
      · exact Or.inl (by simp [charListLE, h, hlt])
      · exact Or.inr (by simp [charListLE, Ne.symm h, hgt])

theorem charListLE_trans : ∀ {a b c : List Char},
    charListLE a b = true → charListLE b c = true → charListLE a c = true
  | [], _, _, _, _ => rfl
  | _ :: _, [], _, h1, _ => by simp [charListLE] at h1
  | _ :: _, _ :: _, [], _, h2 => by simp [charListLE] at h2
  | x :: xs, y :: ys, z :: zs, h1, h2 => by
    by_cases hxy : x = y <;> by_cases hyz : y = z
    · subst hxy; subst hyz
      simp only [charListLE, if_pos rfl] at h1 h2 ⊢
      exact charListLE_trans h1 h2
    · subst hxy
      simpa [charListLE, hyz] using h2
    · subst hyz
      simpa [charListLE, hxy] using h1
    · simp only [charListLE, if_neg hxy, decide_eq_true_eq] at h1
      simp only [charListLE, if_neg hyz, decide_eq_true_eq] at h2
      have hxz : x < z := lt_trans h1 h2
      simp [charListLE, ne_of_lt hxz, hxz]

theorem charListLE_antisymm : ∀ {a b : List Char},
    charListLE a b = true → charListLE b a = true → a = b
  | [], [], _, _ => rfl
  | [], _ :: _, _, h2 => by simp [charListLE] at h2
  | _ :: _, [], h1, _ => by simp [charListLE] at h1
  | x :: xs, y :: ys, h1, h2 => by
    by_cases hxy : x = y
    · subst hxy
      simp only [charListLE, if_pos rfl] at h1 h2
      exact congrArg (x :: ·) (charListLE_antisymm h1 h2)
    · simp only [charListLE, if_neg hxy, decide_eq_true_eq] at h1
      simp only [charListLE, if_neg (Ne.symm hxy), decide_eq_true_eq] at h2
      exact absurd h2 (lt_asymm h1)

instance : IsTotal String strLE := ⟨fun a b => charListLE_total a.data b.data⟩

instance : IsTrans String strLE := ⟨fun _ _ _ h1 h2 => charListLE_trans h1 h2⟩

instance : IsAntisymm String strLE :=
  ⟨fun a b h1 h2 => by
    cases a; cases b
    exact congrArg String.mk (charListLE_antisymm h1 h2)⟩

instance : IsTotal (String × String) keyLE := ⟨fun a b => charListLE_total a.1.data b.1.data⟩

instance : IsTrans (String × String) keyLE := ⟨fun _ _ _ h1 h2 => charListLE_trans h1 h2⟩

theorem string_append_mk (s t : String) : s ++ t = String.mk (s.data ++ t.data) := by
  cases s; cases t; rfl

theorem string_data_append (s t : String) : (s ++ t).data = s.data ++ t.data := by
  cases s; cases t; rfl

theorem string_mk_data (s : String) : String.mk s.data = s := by
  cases s; rfl

theorem splitChar_no_sep {sep : Char} : ∀ {cs : List Char}, sep ∉ cs →
    splitChar sep cs = [cs]
  | [], _ => rfl
  | c :: rest, h => by
    have hc : c ≠ sep := fun he => h (he ▸ List.mem_cons_self c rest)
    have hr : sep ∉ rest := fun hm => h (List.mem_cons_of_mem c hm)
    simp [splitChar, hc, splitChar_no_sep hr]

theorem splitAtLastDot_none : ∀ {cs : List Char}, '.' ∉ cs → splitAtLastDot cs = none
  | [], _ => rfl
  | c :: rest, h => by
    have hc : c ≠ '.' := fun he => h (he ▸ List.mem_cons_self c rest)
    have hr : ('.' : Char) ∉ rest := fun hm => h (List.mem_cons_of_mem c hm)
    simp [splitAtLastDot, splitAtLastDot_none hr, hc]

theorem splitAtLastDot_split : ∀ (b : List Char) {a : List Char}, '.' ∉ a →
    splitAtLastDot (b ++ '.' :: a) = some (b, a)
  | [], a, h => by simp [splitAtLastDot, splitAtLastDot_none h]
  | x :: b, a, h => by simp [splitAtLastDot, splitAtLastDot_split b h]

theorem fileStemChars_no_dot {f : List Char} (h : '.' ∉ f) : fileStemChars f = f := by
  simp [fileStemChars, splitAtLastDot_none h]

theorem fileStemChars_split {b a : List Char} (hb : b ≠ []) (ha : '.' ∉ a) :
    fileStemChars (b ++ '.' :: a) = b := by
  simp [fileStemChars, splitAtLastDot_split b ha, hb]

theorem fileStemChars_hidden {t : List Char} (ht : '.' ∉ t) :
    fileStemChars ('.' :: t) = '.' :: t := by
  have h := splitAtLastDot_split [] ht
  simp only [List.nil_append] at h
  simp [fileStemChars, h]

theorem withExtension_no_slash {name ext : String} (hsl : '/' ∉ name.data)
    (h0 : name.data ≠ []) (h1 : name.data ≠ ['.']) (h2 : name.data ≠ ['.', '.'])
    (he : ext ≠ "") :
    withExtension name ext = String.mk (fileStemChars name.data ++ '.' :: ext.data) := by
  have hch : chunks name = [name.data] := splitChar_no_sep hsl
  have hlast : lastRealChunk [name.data] = some name.data := by
    simp [lastRealChunk, h0, h1]
  have hfn : fileNameChunk name = some name.data := by
    simp [fileNameChunk, hch, hlast, h2]
  have hrep : replaceLastReal (fileStemChars name.data ++ '.' :: ext.data) [name.data] =
      some [fileStemChars name.data ++ '.' :: ext.data] := by
    simp [replaceLastReal, h0, h1]
  simp [withExtension, hfn, he, hch, hrep, List.intercalate, List.intersperse_singleton]

theorem string_ext {s t : String} (h : s.data = t.data) : s = t := by
  cases s; cases t; exact congrArg String.mk h

theorem string_empty_iff_data {s : String} : s = "" ↔ s.data = [] := by
  cases s with
  | mk d =>
    constructor
    · intro h
      rw [h]
    · intro h
      have : d = [] := h
      rw [this]

theorem mem_create_dir_all (dirs : List String) (d : String) : d ∈ create_dir_all dirs d := by
  unfold create_dir_all
  split
  · assumption
  · exact List.mem_cons_self d dirs

theorem create_dir_all_idem (dirs : List String) (d : String) :
    create_dir_all (create_dir_all dirs d) d = create_dir_all dirs d := by
  have h := mem_create_dir_all dirs d
  rw [create_dir_all, if_pos h]

/-- Example configuration used for concrete instances. -/
def exCfg : Config :=
  { conf := "conf", editor := "vim", notes_dir := "/home/u/rnotes"
  , extension := "md", viewer := "cat" }

/-- Example note filesystem for grep: the first note file reads as "x",
every other path is unreadable. -/
def exFs : String → Option String := fun p => if p = "pa" then some "x" else none

/-- C3: for every note index, Ls prints a leading blank line followed by
exactly the index keys sorted lexicographically ascending, the output does
not depend on the enumeration order of the directory entries, and the
process exits with the success status code 0. -/
theorem ls_spec (notes notes2 : List (String × String)) :
    (do_ls notes).1.head? = some "" ∧
    List.Sorted strLE (do_ls notes).1.tail ∧
    (do_ls notes).1.tail.Perm (notes.map Prod.fst) ∧
    (notes.Perm notes2 → do_ls notes = do_ls notes2) ∧
    (do_ls notes).2 = 0 := by
  refine ⟨rfl, ?_, ?_, ?_, rfl⟩
  · simp only [do_ls, List.tail_cons]
    exact List.Pairwise.map Prod.fst (fun a b h => h) (List.sorted_insertionSort keyLE notes)
  · simp only [do_ls, List.tail_cons]
    exact (List.perm_insertionSort keyLE notes).map Prod.fst
  · intro hp
    have s1 : List.Sorted strLE ((notes.insertionSort keyLE).map Prod.fst) :=
      List.Pairwise.map Prod.fst (fun a b h => h) (List.sorted_insertionSort keyLE notes)
    have s2 : List.Sorted strLE ((notes2.insertionSort keyLE).map Prod.fst) :=
      List.Pairwise.map Prod.fst (fun a b h => h) (List.sorted_insertionSort keyLE notes2)
    have t1 : ((notes.insertionSort keyLE).map Prod.fst).Perm
        ((notes2.insertionSort keyLE).map Prod.fst) :=
      (((List.perm_insertionSort keyLE notes).map Prod.fst).trans (hp.map Prod.fst)).trans
        ((List.perm_insertionSort keyLE notes2).map Prod.fst).symm
    have heq := List.eq_of_perm_of_sorted t1 s1 s2
    simp only [do_ls]
    rw [heq]

/-- Witness for C3 at a concrete two-element index and its reordering. -/
theorem ls_spec_witness :
    do_ls [("work", "q"), ("todo", "p")] = do_ls [("todo", "p"), ("work", "q")] :=
  (ls_spec [("work", "q"), ("todo", "p")] [("todo", "p"), ("work", "q")]).2.2.2.1 (by decide)

/-- C4: Find prints a leading blank line and then exactly the index keys
containing the argument as a case-sensitive unanchored substring; the
empty argument matches every key, and with zero matches only the blank
line is printed. -/
theorem find_spec (note_arg : String) (notes : List (String × String)) :
    (do_find note_arg notes).head? = some "" ∧
    (∀ k : String, k ∈ (do_find note_arg notes).tail ↔
      ((∃ v, (k, v) ∈ notes) ∧ note_arg.data <:+: k.data)) ∧
    (do_find "" notes = "" :: notes.map Prod.fst) ∧
    ((∀ x ∈ notes, ¬ (note_arg.data <:+: x.1.data)) → do_find note_arg notes = [""]) := by
  refine ⟨rfl, ?_, ?_, ?_⟩
  · intro k
    simp only [do_find, List.tail_cons, List.mem_map, List.mem_filter, strContains,
      decide_eq_true_eq]
    constructor
    · rintro ⟨⟨k2, v⟩, ⟨hmem, hin⟩, rfl⟩
      exact ⟨⟨v, hmem⟩, hin⟩
    · rintro ⟨⟨v, hmem⟩, hin⟩
      exact ⟨(k, v), ⟨hmem, hin⟩, rfl⟩
  · have hall : notes.filter (fun x => strContains x.1 "") = notes :=
      List.filter_eq_self.mpr (fun a _ => by simp [strContains])
    simp [do_find, hall]
  · intro h
    have hnil : notes.filter (fun x => strContains x.1 note_arg) = [] :=
      List.filter_eq_nil_iff.mpr (fun a ha => by
        simpa [strContains] using h a ha)
    simp [do_find, hnil]

/-- Witness for C4 at a concrete index with zero matches. -/
theorem find_spec_witness : do_find "q" [("todo", "p")] = [""] :=
  (find_spec "q" [("todo", "p")]).2.2.2 (by decide)

/-- C6: Cat and Open look the name up in the index; a miss reports
"name not found" and exits with the distinguished non-zero code 69,
a hit invokes the configured viewer respectively editor with the
resolved path as final argument. -/
theorem cat_open_spec (name : String) (notes : List (String × String)) (cfg : Config) :
    (notes.lookup name = none →
      do_cat name notes cfg = CmdOutcome.notFound (name ++ " not found") 69 ∧
      do_open name notes cfg = CmdOutcome.notFound (name ++ " not found") 69 ∧
      (69 : Nat) ≠ 0) ∧
    (∀ p, notes.lookup name = some p →
      do_cat name notes cfg = CmdOutcome.invoked (cmdInvocation cfg.viewer cfg.notes_dir p) ∧
      do_open name notes cfg = CmdOutcome.invoked (cmdInvocation cfg.editor cfg.notes_dir p) ∧
      (cmdInvocation cfg.viewer cfg.notes_dir p).args.getLast? = some p ∧
      (cmdInvocation cfg.editor cfg.notes_dir p).args.getLast? = some p) := by
  constructor
  · intro h
    refine ⟨?_, ?_, by decide⟩ <;> simp [do_cat, do_open, do_cmd, h]
  · intro p h
    refine ⟨?_, ?_, List.getLast?_concat _, List.getLast?_concat _⟩ <;>
      simp [do_cat, do_open, do_cmd, h]

/-- Witness for C6: a miss on the empty index and a hit on a singleton. -/
theorem cat_open_spec_witness :
    do_cat "x" [] exCfg = CmdOutcome.notFound ("x" ++ " not found") 69 ∧
    do_open "todo" [("todo", "p")] exCfg =
      CmdOutcome.invoked (cmdInvocation exCfg.editor exCfg.notes_dir "p") :=
  ⟨((cat_open_spec "x" [] exCfg).1 rfl).1,
   ((cat_open_spec "todo" [("todo", "p")] exCfg).2 "p" rfl).2.1⟩

/-- C7: a missing notes directory yields the empty index, not ScanError. -/
theorem build_notes_missing_dir (cfg : Config) (fs : NotesFs) (h : fs.dirExists = false) :
    build_notes cfg fs = Except.ok [] := by
  simp [build_notes, h]

/-- Witness for C7 at a concrete absent directory. -/
theorem build_notes_missing_dir_witness :
    build_notes exCfg { dirExists := false, scanError := true, entries := ["a.md"] } =
      Except.ok [] :=
  build_notes_missing_dir exCfg _ rfl

/-- C8: the invoker splits the command line on single spaces into program
and fixed arguments, appends the note path as the final argument, and
ignores the child's exit status: any exit code is success, and SpawnError
arises exactly when spawning itself fails. -/
theorem cmd_spec (env : SpawnEnv) (cmd path note : String) :
    (∀ prog rest, (splitChar ' ' cmd.data).map String.mk = prog :: rest →
      cmdInvocation cmd path note =
        { program := prog, args := rest ++ [note], workdir := path }) ∧
    (cmdInvocation cmd path note).args.getLast? = some note ∧
    (∀ code : Int, env (cmdInvocation cmd path note) = Except.ok code →
      cmdRun env cmd path note = Except.ok ()) ∧
    (∀ e : Unit, env (cmdInvocation cmd path note) = Except.error e →
      cmdRun env cmd path note = Except.error RnError.SpawnError) := by
  refine ⟨?_, List.getLast?_concat _, ?_, ?_⟩
  · intro prog rest h
    simp [cmdInvocation, h]
  · intro code h
    simp [cmdRun, h]
  · intro e h
    simp [cmdRun, h]

/-- Witness for C8: a child exiting with the nonzero status 1 is still
success for the caller. -/
theorem cmd_spec_witness :
    cmdRun (fun _ => Except.ok 1) "vim -n" "/d" "f.md" = Except.ok () :=
  (cmd_spec (fun _ => Except.ok 1) "vim -n" "/d" "f.md").2.2.1 1 rfl

theorem do_grep_all_ok (note_arg : String) : ∀ (notes : List (String × String))
    (fs : String → Option String), (∀ x ∈ notes, (fs x.2).isSome = true) →
    do_grep note_arg notes fs =
      ((notes.map (fun np => grepNote note_arg np.1 ((fs np.2).getD ""))).flatten,
       Except.ok ())
  | [], _, _ => rfl
  | (n, p) :: rest, fs, h => by
    obtain ⟨c, hc⟩ := Option.isSome_iff_exists.mp (h (n, p) (List.mem_cons_self _ _))
    have hr := do_grep_all_ok note_arg rest fs (fun x hx => h x (List.mem_cons_of_mem _ hx))
    simp [do_grep, hc, hr]

/-- C5: with all note files readable, Grep outputs the concatenation of
the per-note blocks in iteration order and succeeds; the block of a note
is empty when no line of its content contains the argument, and otherwise
is a single blank line followed by one line "name: line" per matching
line, where matching is case-sensitive substring containment. -/
theorem grep_spec (note_arg note content : String) (notes : List (String × String))
    (fs : String → Option String) :
    ((∀ x ∈ notes, (fs x.2).isSome = true) →
      do_grep note_arg notes fs =
        ((notes.map (fun np => grepNote note_arg np.1 ((fs np.2).getD ""))).flatten,
         Except.ok ())) ∧
    ((rustLines content).filter (fun l => strContains l note_arg) ≠ [] →
      grepNote note_arg note content =
        "" :: ((rustLines content).filter (fun l => strContains l note_arg)).map
          (fmtMatch note)) ∧
    ((rustLines content).filter (fun l => strContains l note_arg) = [] →
      grepNote note_arg note content = []) ∧
    (∀ l : String, strContains l note_arg = true ↔ note_arg.data <:+: l.data) := by
  refine ⟨fun h => do_grep_all_ok note_arg notes fs h, ?_, ?_, ?_⟩
  · intro h
    simp [grepNote, h]
  · intro h
    simp [grepNote, h]
  · intro l
    simp [strContains]

/-- Witness for C5 at the specification's own example: the note "todo"
with lines "buy milk" and "call bob", searched for "bob". -/
theorem grep_spec_witness :
    do_grep "bob" [("todo", "p")] (fun _ => some "buy milk\ncall bob") =
      (["", "todo: call bob"], Except.ok ()) := by
  have h := (grep_spec "bob" "todo" "" [("todo", "p")]
    (fun _ => some "buy milk\ncall bob")).1 (by decide)
  exact h.trans rfl

/-- C9: the empty grep argument matches every line of every note: the
filter keeps all lines, so a note with at least one line produces the
block of all its lines and a note with no lines produces nothing. -/
theorem grep_empty_spec (note content : String) :
    ((rustLines content).filter (fun l => strContains l "") = rustLines content) ∧
    (rustLines content ≠ [] →
      grepNote "" note content = "" :: (rustLines content).map (fmtMatch note)) ∧
    (rustLines content = [] → grepNote "" note content = []) := by
  have hall : (rustLines content).filter (fun l => strContains l "") = rustLines content :=
    List.filter_eq_self.mpr (fun a _ => by simp [strContains])
  refine ⟨hall, ?_, ?_⟩
  · intro h
    simp [grepNote, hall, h]
  · intro h
    simp [grepNote, hall, h]

/-- Witness for C9 at a two-line note. -/
theorem grep_empty_spec_witness :
    grepNote "" "n" "a\nb" = "" :: (rustLines "a\nb").map (fmtMatch "n") :=
  (grep_empty_spec "n" "a\nb").2.1 (by decide)

/-- C1 counterexample: with the readable, matching note "a" iterated
before the unreadable note "b", Grep fails with ReadError yet the match
output of note "a" has already been produced, refuting "no per-note match
output is produced for any note". -/
theorem grep_partial_counterexample :
    (do_grep "x" [("a", "pa"), ("b", "pb")] exFs).2 = Except.error RnError.ReadError ∧
    (do_grep "x" [("a", "pa"), ("b", "pb")] exFs).1 = ["", "a: x"] ∧
    (["", "a: x"] : List String) ≠ [] :=
  ⟨rfl, rfl, by decide⟩

/-- C1 (amended): when reading the file of some note fails, Grep fails
with ReadError and produces no output for the failing note nor for any
note after it; the output already printed for the notes before it in
iteration order stands. -/
theorem grep_read_failure_aborts (note_arg n p : String) (l1 l2 : List (String × String))
    (fs : String → Option String) (h1 : ∀ x ∈ l1, (fs x.2).isSome = true)
    (h2 : fs p = none) :
    do_grep note_arg (l1 ++ (n, p) :: l2) fs =
      ((do_grep note_arg l1 fs).1, Except.error RnError.ReadError) := by
  induction l1 with
  | nil => simp [do_grep, h2]
  | cons hd t ih =>
    obtain ⟨c, hc⟩ := Option.isSome_iff_exists.mp (h1 hd (List.mem_cons_self _ _))
    have ih2 := ih (fun x hx => h1 x (List.mem_cons_of_mem _ hx))
    cases hd with
    | mk m q => simp [do_grep, hc, ih2]

/-- Witness for C1 (amended): readable matching note before an
unreadable one. -/
theorem grep_read_failure_aborts_witness :
    do_grep "x" ([("a", "pa")] ++ ("b", "pb") :: []) exFs =
      ((do_grep "x" [("a", "pa")] exFs).1, Except.error RnError.ReadError) :=
  grep_read_failure_aborts "x" "b" "pb" [("a", "pa")] [] exFs (by decide) (by decide)

theorem newTarget_plain (name : String) (cfg : Config) (he : cfg.extension ≠ "")
    (hsl : '/' ∉ name.data) (hdot : '.' ∉ name.data) (hne : name ≠ "") :
    newTarget name cfg = cfg.notes_dir ++ "/" ++ name ++ "." ++ cfg.extension := by
  have h0 : name.data ≠ [] := fun h => hne (string_empty_iff_data.mpr h)
  have h1 : name.data ≠ ['.'] := by
    intro h
    exact hdot (by rw [h]; exact List.mem_cons_self _ _)
  have h2 : name.data ≠ ['.', '.'] := by
    intro h
    exact hdot (by rw [h]; exact List.mem_cons_self _ _)
  have hx := withExtension_no_slash hsl h0 h1 h2 he
  rw [fileStemChars_no_dot hdot] at hx
  obtain ⟨c, cs, hcn⟩ : ∃ c cs, name.data = c :: cs := by
    cases hc : name.data with
    | nil => exact absurd hc h0
    | cons c cs => exact ⟨c, cs, rfl⟩
  have hcsl : c ≠ '/' := by
    intro he2
    exact hsl (by rw [hcn, he2]; exact List.mem_cons_self _ _)
  unfold newTarget
  rw [hx]
  have hhead : (String.mk (name.data ++ '.' :: cfg.extension.data)).data.headD ' ' = c := by
    rw [show (String.mk (name.data ++ '.' :: cfg.extension.data)).data =
      name.data ++ '.' :: cfg.extension.data from rfl, hcn]
    rfl
  rw [resolveIn, hhead, if_neg hcsl]
  apply string_ext
  have hsd : ("/" : String).data = ['/'] := rfl
  have hdd : ("." : String).data = ['.'] := rfl
  simp [string_data_append, hsd, hdd, List.append_assoc]

theorem withExtension_replace (name ext : String) (b a : List Char)
    (he : ext ≠ "") (hsl : '/' ∉ name.data) (hdata : name.data = b ++ '.' :: a)
    (hb : b ≠ []) (ha : '.' ∉ a) (hdd : name.data ≠ ['.', '.']) :
    withExtension name ext = String.mk (b ++ '.' :: ext.data) := by
  have h0 : name.data ≠ [] := by rw [hdata]; simp
  have hbl : 0 < b.length := List.length_pos.mpr hb
  have h1 : name.data ≠ ['.'] := by
    rw [hdata]
    intro h
    have hl := congrArg List.length h
    simp [List.length_append] at hl
    omega
  have hx := withExtension_no_slash hsl h0 h1 hdd he
  rw [hdata, fileStemChars_split hb ha] at hx
  exact hx

theorem withExtension_hidden (name ext : String) (t : List Char)
    (he : ext ≠ "") (hdata : name.data = '.' :: t) (ht0 : t ≠ []) (htd : '.' ∉ t)
    (hts : '/' ∉ t) :
    withExtension name ext = name ++ "." ++ ext := by
  have hsl : '/' ∉ name.data := by
    rw [hdata]
    intro h
    rcases List.mem_cons.mp h with h1 | h2
    · exact absurd h1 (by decide)
    · exact hts h2
  have h0 : name.data ≠ [] := by rw [hdata]; simp
  have h1 : name.data ≠ ['.'] := by
    rw [hdata]
    intro h
    injection h with _ h2
    exact ht0 h2
  have h2 : name.data ≠ ['.', '.'] := by
    rw [hdata]
    intro h
    injection h with _ h3
    exact htd (by rw [h3]; exact List.mem_cons_self _ _)
  have hx := withExtension_no_slash hsl h0 h1 h2 he
  rw [hdata, fileStemChars_hidden htd] at hx
  rw [hx]
  apply string_ext
  have hdd2 : ("." : String).data = ['.'] := rfl
  simp [string_data_append, hdd2, hdata, List.append_assoc]

/-- C2 counterexample: for the name ".gitignore", which contains a dot,
the extension is appended rather than the segment after the last dot
being replaced: the target is notes_dir/.gitignore.md and not the
notes_dir/.md the replacement rule would give. -/
theorem new_target_counterexample :
    newTarget ".gitignore" exCfg = "/home/u/rnotes/.gitignore.md" ∧
    newTarget ".gitignore" exCfg ≠ "/home/u/rnotes/.md" :=
  ⟨rfl, by decide⟩

/-- C2 (amended): for a nonempty configured extension and a name without
path separators: a nonempty name with no dot gives the target
notes_dir/name.extension; a name whose last dot has a nonempty segment
before it (and which is not "..") has only the final segment after the
last dot replaced; a name beginning with its only dot gets the extension
appended instead; the invocation runs in the notes directory with the
derived file as final argument; and the notes directory creation is
idempotent. -/
theorem do_new_spec (name : String) (cfg : Config) (dirs : List String) :
    (cfg.extension ≠ "" → '/' ∉ name.data → '.' ∉ name.data → name ≠ "" →
      newTarget name cfg = cfg.notes_dir ++ "/" ++ name ++ "." ++ cfg.extension) ∧
    (∀ b a : List Char, cfg.extension ≠ "" → '/' ∉ name.data →
      name.data = b ++ '.' :: a → b ≠ [] → '.' ∉ a → name.data ≠ ['.', '.'] →
      withExtension name cfg.extension = String.mk (b ++ '.' :: cfg.extension.data)) ∧
    (∀ t : List Char, cfg.extension ≠ "" → name.data = '.' :: t → t ≠ [] →
      '.' ∉ t → '/' ∉ t →
      withExtension name cfg.extension = name ++ "." ++ cfg.extension) ∧
    ((do_new name cfg dirs).inv.workdir = cfg.notes_dir ∧
      (do_new name cfg dirs).inv.args.getLast? =
        some (withExtension name cfg.extension)) ∧
    ((do_new name cfg (do_new name cfg dirs).dirs).dirs = (do_new name cfg dirs).dirs ∧
      cfg.notes_dir ∈ (do_new name cfg dirs).dirs) := by
  refine ⟨fun he hsl hdot hne => newTarget_plain name cfg he hsl hdot hne,
    fun b a he hsl hdata hb ha hdd =>
      withExtension_replace name cfg.extension b a he hsl hdata hb ha hdd,
    fun t he hdata ht0 htd hts =>
      withExtension_hidden name cfg.extension t he hdata ht0 htd hts,
    ⟨rfl, List.getLast?_concat _⟩,
    create_dir_all_idem dirs cfg.notes_dir, mem_create_dir_all dirs cfg.notes_dir⟩

/-- Witness for C2 (amended) at the plain name "todo". -/
theorem do_new_spec_witness :
    newTarget "todo" exCfg = exCfg.notes_dir ++ "/" ++ "todo" ++ "." ++ exCfg.extension :=
  (do_new_spec "todo" exCfg []).1 (by decide) (by decide) (by decide) (by decide)

/-- C10: do_new validates nothing: the editor argument is always the
name with its extension replaced, verbatim; for the absolute name
"/tmp/evil" the effective target lies outside the notes directory, and
no index built from the notes directory can contain it. -/
theorem new_no_validation_spec :
    (∀ (name : String) (cfg : Config) (dirs : List String),
      (do_new name cfg dirs).inv =
        cmdInvocation cfg.editor cfg.notes_dir (withExtension name cfg.extension)) ∧
    newTarget "/tmp/evil" exCfg = "/tmp/evil.md" ∧
    (∀ (fs : NotesFs) (l : List (String × String)), build_notes exCfg fs = Except.ok l →
      "/tmp/evil.md" ∉ l.map Prod.snd) := by
  refine ⟨fun name cfg dirs => rfl, rfl, ?_⟩
  intro fs l h hmem
  by_cases hd : fs.dirExists
  · by_cases hs : fs.scanError
    · simp [build_notes, hd, hs] at h
    · simp [build_notes, hd, hs] at h
      subst h
      simp only [List.map_map, List.mem_map, List.mem_filter, Function.comp] at hmem
      obtain ⟨e, -, hjoin⟩ := hmem
      have hlen := congrArg (fun s => s.data.length) hjoin
      have hnd : (exCfg.notes_dir : String).data.length = 14 := rfl
      have hsl : ("/" : String).data.length = 1 := rfl
      have hev : ("/tmp/evil.md" : String).data.length = 12 := rfl
      simp only [joinPath, string_data_append, List.length_append, hnd, hsl, hev] at hlen
      omega
  · simp [build_notes, hd] at h
    subst h
    simp at hmem

/-- Witness for C10: a normally built singleton index does not contain
the escaped target. -/
theorem new_no_validation_witness :
    "/tmp/evil.md" ∉
      ([("todo", "/home/u/rnotes/todo.md")] : List (String × String)).map Prod.snd :=
  new_no_validation_spec.2.2 { dirExists := true, scanError := false, entries := ["todo.md"] }
    [("todo", "/home/u/rnotes/todo.md")] rfl

end RNotes
